import Mathlib

/-!
Shallow embedding of `short_codes.py` (repository `swenson/shortcodes`).

The source is Python 2: `/` on integers is floor division, `reduce` without an
initializer starts from the first list element and raises `TypeError` on an
empty list, a missing dictionary key raises `KeyError`, and an out-of-range
string index raises `IndexError`.  Fallible operations are embedded in
`Except PyError`; the three exception kinds that can actually escape are
modelled by `PyError`.  Python's three-argument `pow(a, b, m)` is modular
exponentiation by repeated squaring; it is embedded as `pow_mod`, with
`pow_mod_eq` relating it to `a ^ b % m`.
-/

/-- Exception kinds raised by the Python source on bad input. -/
inductive PyError where
  | keyError : PyError
  | typeError : PyError
  | indexError : PyError
deriving DecidableEq, Repr

deriving instance DecidableEq for Except

/-- Binary modular exponentiation, fuel-driven; `powModAux m fuel a b`
computes `a ^ b % m` whenever `b < 2 ^ fuel`. -/
def powModAux (m : Nat) : Nat → Nat → Nat → Nat
  | 0, _, _ => 1 % m
  | fuel + 1, a, b =>
    if b = 0 then 1 % m
    else
      let r := powModAux m fuel (a * a % m) (b / 2)
      if b % 2 = 1 then r * a % m else r

/-- Embedding of Python's `pow(a, b, m)` (modular exponentiation). -/
def pow_mod (a b m : Nat) : Nat := powModAux m b a b


/-! ## Constants of the source -/

/-- `generator = 61`, the smallest prime primitive root of `GF(modulus)`. -/
def generator : Nat := 61

/-- `modulus = 17160991`, a 25-bit prime. -/
def modulus : Nat := 17160991

/-- `offset = 30`, added to the exponent so that 0 does not map to 1 etc. -/
def offset : Nat := 30

/-- `p_minus_1_factors = [2, 3, 5, 7, 11, 17, 19, 23]`,
the prime factorization of `modulus - 1`. -/
def p_minus_1_factors : List Nat := [2, 3, 5, 7, 11, 17, 19, 23]

/-- The non-standard base-32 alphabet of the source. -/
def base32chars : String := "BCDFGHJKLMNPQRSTVWXYZ23456789@*$"

/-- `base32chars_map`: the dictionary `{c: i for i, c in enumerate(base32chars)}`,
modelled as lookup in the association list of (character, index) pairs. -/
def base32chars_map (c : Char) : Option Nat :=
  (base32chars.toList.enum.map (fun p => (p.2, p.1))).lookup c

/-! ## Codec -/

/-- The per-character lookup `base32chars_map[c.upper()]` done by the list
comprehension in `base32_to_int`; a missing key raises `KeyError`. -/
def charVals : List Char → Except PyError (List Nat)
  | [] => .ok []
  | c :: cs =>
    match base32chars_map c.toUpper with
    | none => .error .keyError
    | some v => (charVals cs).map (fun vs => v :: vs)

/-- `base32_to_int(s)`: maps each character through the alphabet dictionary
(after upper-casing) and folds the digits with
`reduce(lambda total, n: total * 32 + n, nums)`.  Python's `reduce` with no
initializer raises `TypeError` on an empty list and starts from the first
element otherwise. -/
def base32_to_int (s : String) : Except PyError Nat := do
  let nums ← charVals s.toList
  match nums with
  | [] => .error .typeError
  | x :: rest => .ok (rest.foldl (fun total n => total * 32 + n) x)

/-- String indexing `base32chars[a]`; out of range raises `IndexError`. -/
def base32char (a : Nat) : Except PyError Char :=
  match base32chars.toList.get? a with
  | none => .error .indexError
  | some c => .ok c

/-- The generator expression `base32chars[a] for a in [...]` in `int_to_base32`. -/
def charsOf : List Nat → Except PyError (List Char)
  | [] => .ok []
  | a :: as =>
    match base32chars.toList.get? a with
    | none => .error .indexError
    | some c => (charsOf as).map (fun cs => c :: cs)

/-- `int_to_base32(n)`: the five base-32 digits of `n`, most significant first,
each mapped through the alphabet (Python 2 `/` is floor division). -/
def int_to_base32 (n : Nat) : Except PyError String :=
  (charsOf [n / (32 * 32 * 32 * 32), n / (32 * 32 * 32) % 32,
            n / (32 * 32) % 32, n / 32 % 32, n % 32]).map
    (fun cs => String.mk cs)

/-! ## Scrambler -/

/-- `scramble(x) = pow(generator, x + offset, modulus)`. -/
def scramble (x : Nat) : Nat := pow_mod generator (x + offset) modulus

/-! ## Discrete-log tables, CRT data, unscrambler -/

/-- `mod_inverse(x, p) = pow(x, p - 2, p)` (Fermat inversion). -/
def mod_inverse (x p : Nat) : Nat := pow_mod x (p - 2) p

/-- The dictionary `crt_inverses = {p: mod_inverse((modulus - 1) / p, p) ...}`,
modelled as a function evaluated at the factor keys. -/
def crt_inverses (p : Nat) : Nat := mod_inverse ((modulus - 1) / p) p

/-- `chinese_remainder_theorem(nums)`: the loop
`for x, n in zip(nums, p_minus_1_factors): s += x * ((modulus - 1) / n) * crt_inverses[n]`
followed by `s % (modulus - 1)`. -/
def chinese_remainder_theorem (nums : List Nat) : Nat :=
  ((nums.zip p_minus_1_factors).foldl
    (fun s xn => s + xn.1 * ((modulus - 1) / xn.2) * crt_inverses xn.2) 0)
    % (modulus - 1)

/-- The loop of `calculate_ph_dlog_table`: `table[gx] = x; gx = gx * g % modulus`
for `x in xrange(p)`. -/
def ph_table_loop (g : Nat) : Nat → Nat → Nat → List (Nat × Nat)
  | _, _, 0 => []
  | gx, x, fuel + 1 => (gx, x) :: ph_table_loop g (gx * g % modulus) (x + 1) fuel

/-- `calculate_ph_dlog_table(p)`: the dictionary mapping
`pow(generator, (modulus-1)/p, modulus) ** x % modulus` to `x`, for `x < p`,
modelled as an association list (its keys are pairwise distinct, so lookup
order does not matter). -/
def calculate_ph_dlog_table (p : Nat) : List (Nat × Nat) :=
  ph_table_loop (pow_mod generator ((modulus - 1) / p) modulus) 1 0 p

/-- The dictionary `pohlig_hellman_dlog_tables`, keyed by the factors. -/
def pohlig_hellman_dlog_tables (p : Nat) : List (Nat × Nat) :=
  calculate_ph_dlog_table p

/-- `discrete_log(x, p)`: raise to `(modulus - 1) / p` and look the result up
in the precomputed table; a missing key raises `KeyError` (`none` here). -/
def discrete_log (x p : Nat) : Option Nat :=
  (pohlig_hellman_dlog_tables p).lookup (pow_mod x ((modulus - 1) / p) modulus)

/-- The list comprehension `[discrete_log(x, p) for p in p_minus_1_factors]`;
a `KeyError` in any element aborts the whole comprehension. -/
def dlogsOf (x : Nat) : List Nat → Except PyError (List Nat)
  | [] => .ok []
  | p :: ps =>
    match discrete_log x p with
    | none => .error .keyError
    | some l => (dlogsOf x ps).map (fun ls => l :: ls)

/-- `unscramble(x)`: Pohlig–Hellman logs, CRT recombination, subtract the
offset, reduce mod `modulus - 1`.  `num = crt(logs) - offset` may be negative,
and Python's `%` on a negative left operand with positive modulus agrees with
`Int.emod`. -/
def unscramble (x : Nat) : Except PyError Int :=
  (dlogsOf x p_minus_1_factors).map
    (fun logs => ((chinese_remainder_theorem logs : Int) - offset) % ((modulus : Int) - 1))

/-! ## Facade -/

/-- `short_code(i) = int_to_base32(scramble(i))`. -/
def short_code (i : Nat) : Except PyError String :=
  int_to_base32 (scramble i)

/-- `deshort_code(c) = unscramble(base32_to_int(c))`. -/
def deshort_code (c : String) : Except PyError Int :=
  (base32_to_int c).bind unscramble

instance : Fact (Nat.Prime modulus) := ⟨by unfold modulus; norm_num⟩

instance : NeZero modulus := ⟨by decide⟩

/-! ## Correctness of the modular exponentiation -/

theorem powModAux_eq (m : Nat) :
    ∀ fuel b, b < 2 ^ fuel → ∀ a, powModAux m fuel a b = a ^ b % m := by
  intro fuel
  induction fuel with
  | zero =>
    intro b hb a
    interval_cases b
    simp [powModAux]
  | succ fuel ih =>
    intro b hb a
    by_cases hb0 : b = 0
    · subst hb0; simp [powModAux]
    · have hdiv : b / 2 < 2 ^ fuel := by
        have : b < 2 ^ fuel * 2 := by
          simpa [Nat.pow_succ] using hb
        omega
      have hrec := ih (b / 2) hdiv (a * a % m)
      have hsq : (a * a % m) ^ (b / 2) % m = (a * a) ^ (b / 2) % m := by
        conv_rhs => rw [Nat.pow_mod]
      have hkey : (a * a) ^ (b / 2) = a ^ (2 * (b / 2)) := by
        rw [two_mul, pow_add, ← pow_mul_comm, ← mul_pow]
      rcases Nat.even_or_odd b with he | ho
      · have h2 : b % 2 = 0 := Nat.even_iff.mp he
        have hb2 : 2 * (b / 2) = b := by omega
        simp only [powModAux, hb0, if_false, h2]
        simp only [show (0 : Nat) ≠ 1 from by decide, if_false]
        rw [hrec, hsq, hkey, hb2]
      · have h2 : b % 2 = 1 := Nat.odd_iff.mp ho
        have hb2 : 2 * (b / 2) + 1 = b := by omega
        simp only [powModAux, hb0, if_false, h2, if_true]
        rw [hrec, hsq, hkey]
        conv_rhs => rw [← hb2]
        rw [pow_succ, Nat.mul_mod, Nat.mod_mod_of_dvd _ (dvd_refl m)]
        rw [← Nat.mul_mod]

theorem pow_mod_eq (a b m : Nat) : pow_mod a b m = a ^ b % m :=
  powModAux_eq m b b (Nat.lt_two_pow b) a

/-! ## Number-theoretic facts about the parameter set -/

theorem modulus_prime : Nat.Prime modulus := Fact.out

theorem cast_pow_mod (a b : Nat) :
    ((pow_mod a b modulus : Nat) : ZMod modulus) = (a : ZMod modulus) ^ b := by
  rw [pow_mod_eq, ZMod.natCast_mod, Nat.cast_pow]

theorem pow_mod_lt (a b : Nat) : pow_mod a b modulus < modulus := by
  rw [pow_mod_eq]; exact Nat.mod_lt _ (by decide)

theorem natCast_zmod_inj {u v : Nat} (hu : u < modulus) (hv : v < modulus)
    (h : (u : ZMod modulus) = (v : ZMod modulus)) : u = v := by
  have hval := congrArg ZMod.val h
  rwa [ZMod.val_natCast_of_lt hu, ZMod.val_natCast_of_lt hv] at hval

theorem generator_ne_zero : ((generator : Nat) : ZMod modulus) ≠ 0 := by
  intro h
  have h61 : (generator : Nat) = 0 :=
    natCast_zmod_inj (by decide) (by decide) (by rw [h, Nat.cast_zero])
  exact absurd h61 (by decide)

/-- Any prime dividing `modulus - 1` is one of the listed factors. -/
theorem prime_dvd_factors {p : Nat} (pp : Nat.Prime p) (h : p ∣ modulus - 1) :
    p ∈ p_minus_1_factors := by
  have hm : modulus - 1 = 2 * (3 * (5 * (7 * (11 * (17 * (19 * 23)))))) := by decide
  rw [hm] at h
  rcases (Nat.Prime.dvd_mul pp).mp h with h | h
  · rw [(Nat.prime_dvd_prime_iff_eq pp (by norm_num)).mp h]; decide
  rcases (Nat.Prime.dvd_mul pp).mp h with h | h
  · rw [(Nat.prime_dvd_prime_iff_eq pp (by norm_num)).mp h]; decide
  rcases (Nat.Prime.dvd_mul pp).mp h with h | h
  · rw [(Nat.prime_dvd_prime_iff_eq pp (by norm_num)).mp h]; decide
  rcases (Nat.Prime.dvd_mul pp).mp h with h | h
  · rw [(Nat.prime_dvd_prime_iff_eq pp (by norm_num)).mp h]; decide
  rcases (Nat.Prime.dvd_mul pp).mp h with h | h
  · rw [(Nat.prime_dvd_prime_iff_eq pp (by norm_num)).mp h]; decide
  rcases (Nat.Prime.dvd_mul pp).mp h with h | h
  · rw [(Nat.prime_dvd_prime_iff_eq pp (by norm_num)).mp h]; decide
  rcases (Nat.Prime.dvd_mul pp).mp h with h | h
  · rw [(Nat.prime_dvd_prime_iff_eq pp (by norm_num)).mp h]; decide
  · rw [(Nat.prime_dvd_prime_iff_eq pp (by norm_num)).mp h]; decide

theorem pow_mod_factors_ne_one :
    ∀ q ∈ p_minus_1_factors, pow_mod generator ((modulus - 1) / q) modulus ≠ 1 := by
  decide

/-- The generator 61 has full multiplicative order `modulus - 1` mod the prime
modulus: it is a primitive root. -/
theorem orderOf_generator :
    orderOf ((generator : Nat) : ZMod modulus) = modulus - 1 := by
  apply orderOf_eq_of_pow_and_pow_div_prime
  · decide
  · exact ZMod.pow_card_sub_one_eq_one generator_ne_zero
  · intro p pp hdvd h1
    apply pow_mod_factors_ne_one p (prime_dvd_factors pp hdvd)
    apply natCast_zmod_inj (pow_mod_lt _ _) (by decide)
    rw [cast_pow_mod, h1, Nat.cast_one]

theorem factors_dvd : ∀ p ∈ p_minus_1_factors, p ∣ modulus - 1 := by decide

theorem factors_pos : ∀ p ∈ p_minus_1_factors, 0 < p := by decide

/-- For each factor `p`, the element `generator ^ ((modulus-1)/p)` has
multiplicative order exactly `p`. -/
theorem orderOf_gp (p : Nat) (hp : p ∈ p_minus_1_factors) :
    orderOf (((generator : Nat) : ZMod modulus) ^ ((modulus - 1) / p)) = p := by
  have hdvd := factors_dvd p hp
  have hdivpos : (modulus - 1) / p ≠ 0 := by
    have := Nat.div_pos (Nat.le_of_dvd (by decide) hdvd) (factors_pos p hp)
    omega
  rw [orderOf_pow' _ hdivpos, orderOf_generator,
    Nat.gcd_eq_right (Nat.div_dvd_of_dvd hdvd), Nat.div_div_self hdvd (by decide)]

/-! ## The discrete-log tables -/

/-- The table-building loop produces the pairs `(gx * g^j % modulus, x + j)`. -/
theorem ph_table_loop_spec (g : Nat) :
    ∀ fuel gx x, gx % modulus = gx →
      ph_table_loop g gx x fuel =
        (List.range fuel).map (fun j => (gx * g ^ j % modulus, x + j)) := by
  intro fuel
  induction fuel with
  | zero => intro gx x _; simp [ph_table_loop]
  | succ fuel ih =>
    intro gx x hgx
    rw [List.range_succ_eq_map, List.map_cons, List.map_map]
    show (gx, x) :: ph_table_loop g (gx * g % modulus) (x + 1) fuel = _
    have hhead : (gx * g ^ 0 % modulus, x + 0) = (gx, x) := by
      simp [hgx]
    rw [hhead]
    rw [ih (gx * g % modulus) (x + 1) (Nat.mod_mod_of_dvd _ (dvd_refl _))]
    congr 1
    apply List.map_congr_left
    intro j _
    simp only [Function.comp, Prod.mk.injEq]
    refine ⟨?_, by omega⟩
    rw [Nat.mod_mul_mod, pow_succ]
    ring_nf

theorem calc_table_eq (p : Nat) :
    calculate_ph_dlog_table p =
      (List.range p).map
        (fun j => (pow_mod generator ((modulus - 1) / p) modulus ^ j % modulus, j)) := by
  unfold calculate_ph_dlog_table
  rw [ph_table_loop_spec _ p 1 0 (by decide)]
  simp

/-- Lookup in a table of `(f j, j)` pairs, when `f` is injective on the
key list, recovers the index. -/
theorem lookup_map_inj (l : List Nat) (f : Nat → Nat)
    (hinj : ∀ a ∈ l, ∀ b ∈ l, f a = f b → a = b) :
    ∀ k ∈ l, (l.map (fun j => (f j, j))).lookup (f k) = some k := by
  induction l with
  | nil => intro k hk; cases hk
  | cons a l ih =>
    intro k hk
    rw [List.map_cons]
    by_cases h : f k = f a
    · have hka : k = a := hinj k hk a (List.mem_cons_self a l) h
      subst hka
      simp [List.lookup]
    · have hkl : k ∈ l := by
        rcases List.mem_cons.mp hk with rfl | hmem
        · exact absurd rfl h
        · exact hmem
      have hbeq : (f k == f a) = false := by
        simp [h]
      have : ((f a, a) :: l.map (fun j => (f j, j))).lookup (f k)
          = (l.map (fun j => (f j, j))).lookup (f k) := by
        simp [List.lookup, hbeq]
      rw [this]
      exact ih (fun x hx y hy => hinj x (List.mem_cons_of_mem a hx) y
        (List.mem_cons_of_mem a hy)) k hkl

/-- Pohlig–Hellman step: if `y` is congruent to `generator ^ e`, then
`discrete_log y p` succeeds and returns `e % p`, for every factor `p`. -/
theorem discrete_log_eq {y e : Nat}
    (hy : (y : ZMod modulus) = ((generator : Nat) : ZMod modulus) ^ e) :
    ∀ p ∈ p_minus_1_factors, discrete_log y p = some (e % p) := by
  intro p hp
  have hppos := factors_pos p hp
  have hord := orderOf_gp p hp
  unfold discrete_log pohlig_hellman_dlog_tables
  rw [calc_table_eq]
  have hinj : ∀ a ∈ List.range p, ∀ b ∈ List.range p,
      pow_mod generator ((modulus - 1) / p) modulus ^ a % modulus
        = pow_mod generator ((modulus - 1) / p) modulus ^ b % modulus → a = b := by
    intro a ha b hb hab
    have hcast := congrArg (fun t => ((t : Nat) : ZMod modulus)) hab
    simp only [ZMod.natCast_mod, Nat.cast_pow] at hcast
    rw [cast_pow_mod] at hcast
    exact pow_injOn_Iio_orderOf
      (by rw [hord]; exact List.mem_range.mp ha)
      (by rw [hord]; exact List.mem_range.mp hb) hcast
  have hzp : ∀ z : ZMod modulus, orderOf z = p → z ^ (e % p) = z ^ e := by
    intro z hz
    rw [← hz, pow_mod_orderOf]
  have hkey : pow_mod y ((modulus - 1) / p) modulus
      = pow_mod generator ((modulus - 1) / p) modulus ^ (e % p) % modulus := by
    apply natCast_zmod_inj (pow_mod_lt _ _) (Nat.mod_lt _ (by decide))
    rw [cast_pow_mod, hy]
    simp only [ZMod.natCast_mod, Nat.cast_pow]
    rw [cast_pow_mod, hzp _ hord, ← pow_mul, mul_comm, pow_mul]
  rw [hkey]
  exact lookup_map_inj (List.range p) _ hinj (e % p)
    (List.mem_range.mpr (Nat.mod_lt _ hppos))

/-- All eight discrete logs succeed when `y` is congruent to a power of the
generator, returning the exponent's residues. -/
theorem dlogsOf_eq {y e : Nat}
    (hy : (y : ZMod modulus) = ((generator : Nat) : ZMod modulus) ^ e) :
    dlogsOf y p_minus_1_factors
      = .ok [e % 2, e % 3, e % 5, e % 7, e % 11, e % 17, e % 19, e % 23] := by
  have h := discrete_log_eq hy
  simp [p_minus_1_factors, dlogsOf, Except.map, h 2 (by decide), h 3 (by decide),
    h 5 (by decide), h 7 (by decide), h 11 (by decide), h 17 (by decide),
    h 19 (by decide), h 23 (by decide)]

/-- The CRT recombination recovers the exponent modulo `modulus - 1` from its
residues at the eight factors. -/
theorem crt_eq (e : Nat) :
    chinese_remainder_theorem [e % 2, e % 3, e % 5, e % 7, e % 11, e % 17, e % 19, e % 23]
      = e % (modulus - 1) := by
  unfold chinese_remainder_theorem
  rw [show [e % 2, e % 3, e % 5, e % 7, e % 11, e % 17, e % 19, e % 23].zip
        p_minus_1_factors
      = [(e % 2, 2), (e % 3, 3), (e % 5, 5), (e % 7, 7), (e % 11, 11), (e % 17, 17),
         (e % 19, 19), (e % 23, 23)] from rfl]
  rw [List.foldl_cons, List.foldl_cons, List.foldl_cons, List.foldl_cons,
    List.foldl_cons, List.foldl_cons, List.foldl_cons, List.foldl_cons, List.foldl_nil]
  show (0 + e % 2 * ((modulus - 1) / 2) * crt_inverses 2
      + e % 3 * ((modulus - 1) / 3) * crt_inverses 3
      + e % 5 * ((modulus - 1) / 5) * crt_inverses 5
      + e % 7 * ((modulus - 1) / 7) * crt_inverses 7
      + e % 11 * ((modulus - 1) / 11) * crt_inverses 11
      + e % 17 * ((modulus - 1) / 17) * crt_inverses 17
      + e % 19 * ((modulus - 1) / 19) * crt_inverses 19
      + e % 23 * ((modulus - 1) / 23) * crt_inverses 23) % (modulus - 1)
    = e % (modulus - 1)
  rw [show crt_inverses 2 = 1 from by decide, show crt_inverses 3 = 2 from by decide,
    show crt_inverses 5 = 2 from by decide, show crt_inverses 7 = 4 from by decide,
    show crt_inverses 11 = 3 from by decide, show crt_inverses 17 = 12 from by decide,
    show crt_inverses 19 = 11 from by decide, show crt_inverses 23 = 7 from by decide,
    show (modulus - 1) / 2 = 8580495 from by decide,
    show (modulus - 1) / 3 = 5720330 from by decide,
    show (modulus - 1) / 5 = 3432198 from by decide,
    show (modulus - 1) / 7 = 2451570 from by decide,
    show (modulus - 1) / 11 = 1560090 from by decide,
    show (modulus - 1) / 17 = 1009470 from by decide,
    show (modulus - 1) / 19 = 903210 from by decide,
    show (modulus - 1) / 23 = 746130 from by decide,
    show modulus - 1 = 17160990 from by decide]
  omega

/-- `unscramble` of anything congruent to `generator ^ e` returns
`(e - offset) mod (modulus - 1)`. -/
theorem unscramble_pow {y e : Nat}
    (hy : (y : ZMod modulus) = ((generator : Nat) : ZMod modulus) ^ e) :
    unscramble y = .ok (((e : Int) - offset) % ((modulus : Int) - 1)) := by
  unfold unscramble
  rw [dlogsOf_eq hy]
  show Except.ok
      (((chinese_remainder_theorem
          [e % 2, e % 3, e % 5, e % 7, e % 11, e % 17, e % 19, e % 23] : Int)
        - offset) % ((modulus : Int) - 1)) = _
  rw [crt_eq]
  congr 1
  push_cast [show modulus = 17160991 from rfl, show offset = 30 from rfl]
  omega

/-- Every nonzero residue mod the prime modulus is a power of the generator
(61 generates the full multiplicative group). -/
theorem exists_exponent {y : Nat} (h1 : 1 ≤ y) (h2 : y ≤ modulus - 1) :
    ∃ e : Nat, (y : ZMod modulus) = ((generator : Nat) : ZMod modulus) ^ e := by
  have hy0 : (y : ZMod modulus) ≠ 0 := by
    intro h
    have := natCast_zmod_inj (by omega : y < modulus) (by decide : (0 : Nat) < modulus)
      (by rw [h, Nat.cast_zero])
    omega
  obtain ⟨gu, hgu⟩ := isUnit_iff_ne_zero.mpr generator_ne_zero
  obtain ⟨yu, hyu⟩ := isUnit_iff_ne_zero.mpr hy0
  have hord_u : orderOf gu = modulus - 1 := by
    rw [← orderOf_units, hgu]
    exact orderOf_generator
  have htop : Subgroup.zpowers gu = ⊤ := by
    apply Subgroup.eq_top_of_card_eq
    rw [Nat.card_zpowers, hord_u, Nat.card_eq_fintype_card, ZMod.card_units modulus]
  have hmem : yu ∈ Subgroup.zpowers gu := htop ▸ Subgroup.mem_top yu
  rw [← mem_powers_iff_mem_zpowers, Submonoid.mem_powers_iff] at hmem
  obtain ⟨e, he⟩ := hmem
  refine ⟨e, ?_⟩
  rw [← hyu, ← he, ← hgu, Units.val_pow_eq_pow_val]

/-! ## Codec lemmas -/

/-- Each digit below 32 maps to an alphabet character that maps back to the
digit (the alphabet has 32 pairwise distinct characters, all fixed by
upper-casing). -/
theorem alphabet_roundtrip :
    ∀ d, d < 32 →
      (base32chars.toList.get? d).bind (fun c => base32chars_map c.toUpper) = some d := by
  decide

theorem charsOf_spec (ds : List Nat) (h : ∀ d ∈ ds, d < 32) :
    ∃ cs, charsOf ds = .ok cs ∧ cs.length = ds.length
      ∧ (∀ c ∈ cs, c ∈ base32chars.toList) ∧ charVals cs = .ok ds := by
  induction ds with
  | nil => exact ⟨[], rfl, rfl, fun c hc => absurd hc (List.not_mem_nil c), rfl⟩
  | cons d ds ih =>
    obtain ⟨cs, hcs, hlen, hmem, hvals⟩ := ih (fun x hx => h x (List.mem_cons_of_mem _ hx))
    have hd : d < 32 := h d (List.mem_cons_self _ _)
    have hrt := alphabet_roundtrip d hd
    cases hget : base32chars.toList.get? d with
    | none => rw [hget] at hrt; cases hrt
    | some c =>
      rw [hget, Option.some_bind] at hrt
      refine ⟨c :: cs, ?_, ?_, ?_, ?_⟩
      · simp only [charsOf, hget, hcs, Except.map]
      · simp [hlen]
      · intro x hx
        rcases List.mem_cons.mp hx with rfl | hx2
        · exact List.get?_mem hget
        · exact hmem x hx2
      · simp only [charVals, hrt, hvals, Except.map]

/-- `int_to_base32` on any `n < 32^5` produces a 5-character in-alphabet
string that `base32_to_int` decodes back to `n`. -/
theorem int_to_base32_spec (n : Nat) (h : n < 32 ^ 5) :
    ∃ s, int_to_base32 n = .ok s ∧ s.length = 5
      ∧ (∀ c ∈ s.toList, c ∈ base32chars.toList) ∧ base32_to_int s = .ok n := by
  have h5 : n < 33554432 := by
    have : (32 : Nat) ^ 5 = 33554432 := by norm_num
    omega
  have hds : ∀ d ∈ [n / (32 * 32 * 32 * 32), n / (32 * 32 * 32) % 32,
      n / (32 * 32) % 32, n / 32 % 32, n % 32], d < 32 := by
    intro d hd
    simp only [List.mem_cons, List.not_mem_nil, or_false] at hd
    rcases hd with rfl | rfl | rfl | rfl | rfl <;> omega
  obtain ⟨cs, hcs, hlen, hmemcs, hvals⟩ := charsOf_spec _ hds
  refine ⟨String.mk cs, ?_, ?_, ?_, ?_⟩
  · unfold int_to_base32
    rw [hcs]
    rfl
  · show (String.mk cs).length = 5
    rw [show (String.mk cs).length = cs.length from rfl, hlen]
    rfl
  · intro c hc
    exact hmemcs c hc
  · unfold base32_to_int
    rw [show (String.mk cs).toList = cs from rfl, hvals]
    show Except.ok (List.foldl (fun total n => total * 32 + n) (n / (32 * 32 * 32 * 32))
      [n / (32 * 32 * 32) % 32, n / (32 * 32) % 32, n / 32 % 32, n % 32]) = Except.ok n
    rw [List.foldl_cons, List.foldl_cons, List.foldl_cons, List.foldl_cons, List.foldl_nil]
    congr 1
    omega

/-- `charVals` succeeds when every character is in the alphabet. -/
theorem charVals_ok (l : List Char) (h : ∀ c ∈ l, (base32chars_map c.toUpper).isSome) :
    ∃ vs, charVals l = .ok vs ∧ vs.length = l.length := by
  induction l with
  | nil => exact ⟨[], rfl, rfl⟩
  | cons c cs ih =>
    obtain ⟨vs, hvs, hlen⟩ := ih (fun x hx => h x (List.mem_cons_of_mem _ hx))
    have hc := h c (List.mem_cons_self _ _)
    cases hm : base32chars_map c.toUpper with
    | none => rw [hm] at hc; cases hc
    | some v =>
      refine ⟨v :: vs, ?_, by simp [hlen]⟩
      simp only [charVals, hm, hvs, Except.map]

/-- `charVals` fails with `KeyError` when some character is outside the
alphabet. -/
theorem charVals_err (l : List Char) (h : ∃ c ∈ l, base32chars_map c.toUpper = none) :
    charVals l = .error .keyError := by
  induction l with
  | nil => obtain ⟨c, hc, _⟩ := h; cases hc
  | cons c cs ih =>
    cases hm : base32chars_map c.toUpper with
    | none => simp only [charVals, hm]
    | some v =>
      obtain ⟨x, hx, hxm⟩ := h
      rcases List.mem_cons.mp hx with rfl | hx2
      · rw [hm] at hxm; cases hxm
      · have htail := ih ⟨x, hx2, hxm⟩
        simp only [charVals, hm, htail, Except.map]

/-- Full case analysis of `base32_to_int`: the code performs no length check;
the only failures are a missing alphabet key (Python `KeyError`) and the empty
string (Python `TypeError`, from `reduce` over an empty list). -/
theorem base32_to_int_cases (s : String) :
    (base32_to_int s = .error .keyError ↔ ∃ c ∈ s.toList, base32chars_map c.toUpper = none)
    ∧ (base32_to_int s = .error .typeError ↔ s.toList = [])
    ∧ ((∃ v, base32_to_int s = .ok v)
        ↔ s.toList ≠ [] ∧ ∀ c ∈ s.toList, (base32chars_map c.toUpper).isSome) := by
  by_cases hbad : ∃ c ∈ s.toList, base32chars_map c.toUpper = none
  · have hb : base32_to_int s = .error .keyError := by
      unfold base32_to_int
      rw [charVals_err _ hbad]
      rfl
    obtain ⟨c0, hc0, hc0m⟩ := hbad
    refine ⟨⟨fun _ => ⟨c0, hc0, hc0m⟩, fun _ => hb⟩, ⟨?_, ?_⟩, ⟨?_, ?_⟩⟩
    · intro h
      rw [hb] at h
      simp at h
    · intro h
      exact absurd (h ▸ hc0) (List.not_mem_nil c0)
    · rintro ⟨v, hv⟩
      rw [hb] at hv
      simp at hv
    · rintro ⟨-, hall⟩
      have hsome := hall c0 hc0
      rw [hc0m] at hsome
      simp at hsome
  · push_neg at hbad
    have hall : ∀ c ∈ s.toList, (base32chars_map c.toUpper).isSome := by
      intro c hc
      cases hm : base32chars_map c.toUpper with
      | none => exact absurd hm (hbad c hc)
      | some v => rfl
    obtain ⟨vs, hvs, hlen⟩ := charVals_ok _ hall
    by_cases hemp : s.toList = []
    · have hvs0 : vs = [] := by
        apply List.eq_nil_of_length_eq_zero
        rw [hlen, hemp]
        rfl
      subst hvs0
      have hb : base32_to_int s = .error .typeError := by
        unfold base32_to_int
        rw [hvs]
        rfl
      refine ⟨⟨?_, ?_⟩, ⟨fun _ => hemp, fun _ => hb⟩, ⟨?_, ?_⟩⟩
      · intro h
        rw [hb] at h
        simp at h
      · rintro ⟨c, hc, -⟩
        exact absurd (hemp ▸ hc) (List.not_mem_nil c)
      · rintro ⟨v, hv⟩
        rw [hb] at hv
        simp at hv
      · rintro ⟨hne, -⟩
        exact absurd hemp hne
    · have hvs_ne : vs ≠ [] := by
        intro h0
        apply hemp
        apply List.eq_nil_of_length_eq_zero
        rw [← hlen, h0]
        rfl
      obtain ⟨v0, vrest, rfl⟩ := List.exists_cons_of_ne_nil hvs_ne
      have hb : base32_to_int s
          = .ok (vrest.foldl (fun total n => total * 32 + n) v0) := by
        unfold base32_to_int
        rw [hvs]
        rfl
      refine ⟨⟨?_, ?_⟩, ⟨?_, fun h => absurd h hemp⟩,
        ⟨fun _ => ⟨hemp, hall⟩, fun _ => ⟨_, hb⟩⟩⟩
      · intro h
        rw [hb] at h
        simp at h
      · rintro ⟨c, hc, hcm⟩
        exact absurd hcm (hbad c hc)
      · intro h
        rw [hb] at h
        simp at h

/-! ## Scrambler lemmas -/

theorem cast_scramble (x : Nat) :
    ((scramble x : Nat) : ZMod modulus) = ((generator : Nat) : ZMod modulus) ^ (x + offset) :=
  cast_pow_mod _ _

theorem scramble_lt (x : Nat) : scramble x < modulus := pow_mod_lt _ _

theorem scramble_ne_zero (x : Nat) : scramble x ≠ 0 := by
  intro h
  have hc : ((scramble x : Nat) : ZMod modulus) = 0 := by
    rw [h]
    exact Nat.cast_zero
  rw [cast_scramble] at hc
  exact pow_ne_zero _ generator_ne_zero hc

/-! ## Claim theorems -/

/-- C1: for every integer `i` in `[0, modulus-2]` (`modulus = 17160991`),
decoding the encoding is the identity: `deshort_code (short_code i) = i`. -/
theorem claim_round_trip (i : Nat) (h : i ≤ modulus - 2) :
    (short_code i).bind deshort_code = .ok (i : Int) := by
  obtain ⟨s, hs, hlen, hmem, hdec⟩ := int_to_base32_spec (scramble i)
    (lt_trans (scramble_lt i) (by norm_num [modulus]))
  unfold short_code
  rw [hs]
  show deshort_code s = .ok (i : Int)
  unfold deshort_code
  rw [hdec]
  show unscramble (scramble i) = .ok (i : Int)
  rw [unscramble_pow (cast_scramble i)]
  congr 1
  rw [show modulus - 2 = 17160989 from rfl] at h
  push_cast [show modulus = 17160991 from rfl, show offset = 30 from rfl]
  omega

/-- C1 witness: the round trip at the concrete counter 123. -/
theorem claim_round_trip_witness :
    (123 : Nat) ≤ modulus - 2 ∧ (short_code 123).bind deshort_code = .ok (123 : Int) :=
  ⟨by decide, claim_round_trip 123 (by decide)⟩

/-- C2 counterexample: the claim says every `y ≥ modulus` makes `unscramble`
fail, but `unscramble (modulus + 1)` succeeds, returning the counter 17160960
(the value whose scramble is congruent to `modulus + 1`). -/
theorem claim_unscramble_counterexample :
    modulus + 1 ≥ modulus ∧ unscramble (modulus + 1) = .ok 17160960 :=
  ⟨by decide, by decide⟩

/-- C2 amended: `unscramble y` behaves exactly as on `y % modulus` (Python's
`pow` reduces the base), and it fails — with the missing-key error — if and
only if `y` is congruent to 0 mod `modulus`.  In particular it fails at
`y = 0`, and every `y` in `[1, modulus-1]` is a value produced by the
Scrambler, so those all succeed; but a `y ≥ modulus` fails only when
`modulus ∣ y`, it is not rejected for being out of range. -/
theorem claim_unscramble_fails_iff (y : Nat) :
    unscramble y = unscramble (y % modulus)
    ∧ ((∃ err, unscramble y = .error err) ↔ y % modulus = 0) := by
  have hdl : ∀ p, discrete_log y p = discrete_log (y % modulus) p := by
    intro p
    unfold discrete_log
    congr 1
    rw [pow_mod_eq, pow_mod_eq]
    conv_lhs => rw [Nat.pow_mod]
  have hcong : unscramble y = unscramble (y % modulus) := by
    unfold unscramble
    have hlist : ∀ l : List Nat, dlogsOf y l = dlogsOf (y % modulus) l := by
      intro l
      induction l with
      | nil => rfl
      | cons p ps ih => simp only [dlogsOf, hdl p, ih]
    rw [hlist]
  refine ⟨hcong, ⟨?_, ?_⟩⟩
  · rintro ⟨err, herr⟩
    by_contra h0
    have h1 : 1 ≤ y % modulus := Nat.one_le_iff_ne_zero.mpr h0
    have h2 : y % modulus ≤ modulus - 1 := by
      have := Nat.mod_lt y (show 0 < modulus from by decide)
      omega
    obtain ⟨e, he⟩ := exists_exponent h1 h2
    have hy : (y : ZMod modulus) = ((generator : Nat) : ZMod modulus) ^ e := by
      rw [← ZMod.natCast_mod y modulus]
      exact he
    rw [unscramble_pow hy] at herr
    exact Except.noConfusion herr
  · intro h0
    refine ⟨.keyError, ?_⟩
    rw [hcong, h0]
    decide

/-- C3 counterexample: the claim says `base32_to_int` fails with
`InvalidLength` whenever the length is not 5, but the code performs no length
check: the 4-character input `"BBBB"` succeeds, returning 0. -/
theorem claim_base32_counterexample :
    "BBBB".length ≠ 5 ∧ base32_to_int "BBBB" = .ok 0 :=
  ⟨by decide, by decide⟩

/-- C3 amended: `base32_to_int` performs no length check at all.  It fails
with the missing-key error (`KeyError`) iff some character, after upper-casing,
is absent from the alphabet; it fails with `TypeError` (from `reduce` over an
empty list) iff the input is empty; and on every other input — of any
length — it succeeds. -/
theorem claim_base32_cases (s : String) :
    (base32_to_int s = .error .keyError ↔ ∃ c ∈ s.toList, base32chars_map c.toUpper = none)
    ∧ (base32_to_int s = .error .typeError ↔ s.toList = [])
    ∧ ((∃ v, base32_to_int s = .ok v)
        ↔ s.toList ≠ [] ∧ ∀ c ∈ s.toList, (base32chars_map c.toUpper).isSome) :=
  base32_to_int_cases s

/-- C4: `scramble i` computes `generator ^ (i + offset) % modulus`, it is
total, injective on one period `[0, modulus-2]`, and its image is exactly the
nonzero residues `[1, modulus-1]`. -/
theorem claim_scramble_bijection :
    (∀ i : Nat, scramble i = generator ^ (i + offset) % modulus)
    ∧ (∀ i j : Nat, i ≤ modulus - 2 → j ≤ modulus - 2 → scramble i = scramble j → i = j)
    ∧ (∀ i : Nat, 1 ≤ scramble i ∧ scramble i ≤ modulus - 1)
    ∧ (∀ y : Nat, 1 ≤ y → y ≤ modulus - 1 → ∃ i, i ≤ modulus - 2 ∧ scramble i = y) := by
  refine ⟨fun i => pow_mod_eq _ _ _, ?_, ?_, ?_⟩
  · intro i j hi hj hij
    have hc := congrArg (fun t : Nat => ((t : Nat) : ZMod modulus)) hij
    simp only at hc
    rw [cast_scramble, cast_scramble] at hc
    have h1 : ((generator : Nat) : ZMod modulus) ^ ((i + offset) % (modulus - 1))
        = ((generator : Nat) : ZMod modulus) ^ ((j + offset) % (modulus - 1)) := by
      rw [show modulus - 1 = orderOf ((generator : Nat) : ZMod modulus) from
        orderOf_generator.symm]
      rw [pow_mod_orderOf, pow_mod_orderOf]
      exact hc
    have h2 := pow_injOn_Iio_orderOf
      (show (i + offset) % (modulus - 1)
          ∈ Set.Iio (orderOf ((generator : Nat) : ZMod modulus)) from by
        rw [orderOf_generator]
        exact Set.mem_Iio.mpr (Nat.mod_lt _ (by decide)))
      (show (j + offset) % (modulus - 1)
          ∈ Set.Iio (orderOf ((generator : Nat) : ZMod modulus)) from by
        rw [orderOf_generator]
        exact Set.mem_Iio.mpr (Nat.mod_lt _ (by decide)))
      h1
    rw [show modulus - 1 = 17160990 from rfl] at h2
    rw [show modulus - 2 = 17160989 from rfl] at hi hj
    rw [show offset = 30 from rfl] at h2
    omega
  · intro i
    have h1 := scramble_ne_zero i
    have h2 := scramble_lt i
    rw [show modulus = 17160991 from rfl] at h2 ⊢
    omega
  · intro y hy1 hy2
    obtain ⟨e, he⟩ := exists_exponent hy1 hy2
    refine ⟨(e % (modulus - 1) + (modulus - 1) - offset) % (modulus - 1), ?_, ?_⟩
    · rw [show modulus - 1 = 17160990 from rfl, show modulus - 2 = 17160989 from rfl,
        show offset = 30 from rfl]
      omega
    · apply natCast_zmod_inj (scramble_lt _)
        (by rw [show modulus = 17160991 from rfl] at hy2 ⊢; omega)
      rw [cast_scramble, he]
      conv_lhs => rw [← pow_mod_orderOf]
      conv_rhs => rw [← pow_mod_orderOf]
      rw [orderOf_generator]
      apply congrArg
      rw [show modulus - 1 = 17160990 from rfl, show offset = 30 from rfl]
      omega

/-- C4 witness: the formula at 5, the range at 5, and a preimage of the
nonzero residue 4244504. -/
theorem claim_scramble_bijection_witness :
    scramble 5 = generator ^ (5 + offset) % modulus
    ∧ (1 ≤ scramble 5 ∧ scramble 5 ≤ modulus - 1)
    ∧ ∃ i, i ≤ modulus - 2 ∧ scramble i = 4244504 :=
  ⟨claim_scramble_bijection.1 5, claim_scramble_bijection.2.2.1 5,
    claim_scramble_bijection.2.2.2 4244504 (by decide) (by decide)⟩

/-- C5: codec round trip — for every `n < 32^5`,
`base32_to_int (int_to_base32 n) = n`. -/
theorem claim_codec_round_trip (n : Nat) (h : n < 32 ^ 5) :
    (int_to_base32 n).bind base32_to_int = .ok n := by
  obtain ⟨s, hs, -, -, hdec⟩ := int_to_base32_spec n h
  rw [hs]
  exact hdec

/-- C5 witness: the codec round trip at 1499879 (the value of `scramble 1`). -/
theorem claim_codec_round_trip_witness :
    (1499879 : Nat) < 32 ^ 5 ∧ (int_to_base32 1499879).bind base32_to_int = .ok 1499879 :=
  ⟨by norm_num, claim_codec_round_trip 1499879 (by norm_num)⟩

/-- C6: periodicity of the public encoder:
`short_code (i + (modulus - 1)) = short_code i` for every `i ≥ 0`. -/
theorem claim_short_code_periodic (i : Nat) :
    short_code (i + (modulus - 1)) = short_code i := by
  unfold short_code
  congr 1
  apply natCast_zmod_inj (scramble_lt _) (scramble_lt _)
  rw [cast_scramble, cast_scramble]
  conv_lhs => rw [← pow_mod_orderOf]
  conv_rhs => rw [← pow_mod_orderOf]
  rw [orderOf_generator]
  apply congrArg
  rw [show modulus - 1 = 17160990 from rfl]
  omega

/-- C7: for every factor `p` and every `k < p`, the precomputed table for `p`
maps `(generator ^ ((modulus-1)/p)) ^ k mod modulus` to `k`; the stored CRT
coefficient satisfies `((modulus-1)/p) * inv_p ≡ 1 (mod p)` and is computed
as `x ^ (p-2) mod p`. -/
theorem claim_table_spec :
    ∀ p ∈ p_minus_1_factors,
      (∀ k, k < p →
        (calculate_ph_dlog_table p).lookup
          ((generator ^ ((modulus - 1) / p)) ^ k % modulus) = some k)
      ∧ ((modulus - 1) / p * crt_inverses p) % p = 1
      ∧ crt_inverses p = ((modulus - 1) / p) ^ (p - 2) % p := by
  have hsem : ∀ q k, (generator ^ ((modulus - 1) / q)) ^ k % modulus
      = pow_mod (pow_mod generator ((modulus - 1) / q) modulus) k modulus := by
    intro q k
    rw [pow_mod_eq, pow_mod_eq]
    conv_lhs => rw [Nat.pow_mod]
  have hdec : ∀ p ∈ p_minus_1_factors,
      (∀ k, k < p →
        (calculate_ph_dlog_table p).lookup
          (pow_mod (pow_mod generator ((modulus - 1) / p) modulus) k modulus) = some k)
      ∧ ((modulus - 1) / p * crt_inverses p) % p = 1
      ∧ crt_inverses p = pow_mod ((modulus - 1) / p) (p - 2) p := by
    decide
  intro p hp
  obtain ⟨ha, hb, hc⟩ := hdec p hp
  refine ⟨?_, hb, ?_⟩
  · intro k hk
    rw [hsem]
    exact ha k hk
  · rw [hc, pow_mod_eq]

/-- C7 witness: the table and CRT coefficient facts at the factor 23, index 5. -/
theorem claim_table_spec_witness :
    23 ∈ p_minus_1_factors
    ∧ (calculate_ph_dlog_table 23).lookup
        ((generator ^ ((modulus - 1) / 23)) ^ 5 % modulus) = some 5
    ∧ ((modulus - 1) / 23 * crt_inverses 23) % 23 = 1
    ∧ crt_inverses 23 = ((modulus - 1) / 23) ^ (23 - 2) % 23 :=
  ⟨by decide, (claim_table_spec 23 (by decide)).1 5 (by decide),
    (claim_table_spec 23 (by decide)).2.1, (claim_table_spec 23 (by decide)).2.2⟩

/-- C8: the literal test vectors of the source's doctests. -/
theorem claim_literal_vectors :
    short_code 0 = .ok "GCWB5" ∧ short_code 1 = .ok "CR54K"
    ∧ short_code 123 = .ok "K8$PN"
    ∧ deshort_code "GCWB5" = .ok 0 ∧ deshort_code "CR54K" = .ok 1
    ∧ deshort_code "K8$PN" = .ok 123
    ∧ int_to_base32 0 = .ok "BBBBB" ∧ base32_to_int "BBBBB" = .ok 0
    ∧ base32_to_int "BBBBC" = .ok 1 :=
  ⟨by decide, by decide, by decide, by decide, by decide, by decide, by decide,
    by decide, by decide⟩

/-- C9: for every `y` in `[1, modulus-1]`, every per-factor table lookup in
`discrete_log` succeeds, and `unscramble y` succeeds with a result in
`[0, modulus-2]` — the "no matching entry" branch is unreachable for nonzero
residues. -/
theorem claim_dlog_total (y : Nat) (h1 : 1 ≤ y) (h2 : y ≤ modulus - 1) :
    (∀ p ∈ p_minus_1_factors, (discrete_log y p).isSome)
    ∧ ∃ r : Int, unscramble y = .ok r ∧ 0 ≤ r ∧ r ≤ (modulus : Int) - 2 := by
  obtain ⟨e, he⟩ := exists_exponent h1 h2
  constructor
  · intro p hp
    rw [discrete_log_eq he p hp]
    rfl
  · refine ⟨_, unscramble_pow he, ?_, ?_⟩
    · apply Int.emod_nonneg
      norm_num [modulus]
    · have hlt := Int.emod_lt_of_pos ((e : Int) - offset)
        (show (0 : Int) < (modulus : Int) - 1 from by norm_num [modulus])
      omega

/-- C9 witness: the lookups and the unscramble result at `y = 4244504`. -/
theorem claim_dlog_total_witness :
    1 ≤ (4244504 : Nat) ∧ (4244504 : Nat) ≤ modulus - 1
    ∧ ((∀ p ∈ p_minus_1_factors, (discrete_log 4244504 p).isSome)
       ∧ ∃ r : Int, unscramble 4244504 = .ok r ∧ 0 ≤ r ∧ r ≤ (modulus : Int) - 2) :=
  ⟨by decide, by decide, claim_dlog_total 4244504 (by decide) (by decide)⟩

/-- C10: for every counter `i`, `short_code i` returns a string of exactly 5
characters, each drawn from the 32-character alphabet. -/
theorem claim_short_code_format (i : Nat) :
    ∃ s, short_code i = .ok s ∧ s.length = 5 ∧ ∀ c ∈ s.toList, c ∈ base32chars.toList := by
  obtain ⟨s, hs, hlen, hmem, -⟩ := int_to_base32_spec (scramble i)
    (lt_trans (scramble_lt i) (by norm_num [modulus]))
  exact ⟨s, hs, hlen, hmem⟩
